import Mathlib

/- Verification of the row streaming / mutation engine of the excelize_ch
spreadsheet library.  The Go source is embedded shallowly: pure Lean
functions mirror the Go functions, stateful loops become explicit state
passing, and fallible operations return Except/Option values. -/

namespace Excelize

/-- Error taxonomy of the row engine (newInvalidRowNumberError, ErrMaxRows,
ErrParameterInvalid, ErrDataValidationFormulaLength, and a Go slice-index
panic). -/
inductive Err where
  | invalidRowNumber
  | maxRows
  | parameterInvalid
  | formulaLength
  | indexOutOfRange
  deriving DecidableEq, Repr

/-- Modelled from the spec: the fixed maximum row bound (TotalRows), whose
definition is not part of the given source files. -/
def TotalRows : Int := 1048576

/-- Maximum length of a data validation formula field; the SetDropList doc
comment states the limit is 255 characters including separators. -/
def MaxFieldLength : Nat := 255

/-- Default row height of a worksheet. -/
def defaultRowHeight : ℚ := 15

/- ------------------------------------------------------------------
Rows iterator (Rows.Next): the cursor state and the token stream.
------------------------------------------------------------------ -/

/-- Tokens of the worksheet XML stream as seen by Rows.Next: a row start
element carrying the integer parsed from its explicit r attribute (0 when
the attribute is absent, zero, or unparsable, in which case the code keeps
the positional number), the sheetData end element, and any other token. -/
inductive XToken where
  | rowStart (r : Int)
  | sheetDataEnd
  | other
  deriving DecidableEq, Repr

/-- Cursor state of the Rows iterator: curRow (row most recently
materialized), seekRow (row most recently requested by the caller), and
the remaining token stream. -/
structure RowsState where
  curRow : Int
  seekRow : Int
  stream : List XToken
  deriving DecidableEq, Repr

/-- Effective row number a row element receives in Rows.Next: curRow is
first incremented, then overridden by the r attribute when it is nonzero. -/
def effRow (cur r : Int) : Int := if r = 0 then cur + 1 else r

/-- The token loop of Rows.Next: scan forward for the next row start
element; stop with false at the end of the stream or at the sheetData end
element.  Returns the found flag, the updated curRow, and the rest of the
stream. -/
def nextLoop (cur : Int) : List XToken → Bool × Int × List XToken
  | [] => (false, cur, [])
  | XToken.rowStart r :: rest => (true, effRow cur r, rest)
  | XToken.sheetDataEnd :: rest => (false, cur, rest)
  | XToken.other :: rest => nextLoop cur rest

/-- Rows.Next: increment seekRow; when curRow is already at or past the new
seekRow reuse the buffered row, otherwise advance the token stream. -/
def next (s : RowsState) : Bool × RowsState :=
  let seek := s.seekRow + 1
  if seek ≤ s.curRow then (true, { s with seekRow := seek })
  else
    let r := nextLoop s.curRow s.stream
    (r.1, { curRow := r.2.1, seekRow := seek, stream := r.2.2 })

/-- nextCalls k s: k successive Next calls each of which returned true;
none when some call in the sequence returned false. -/
def nextCalls : Nat → RowsState → Option RowsState
  | 0, s => some s
  | k + 1, s =>
    let r := next s
    if r.1 then nextCalls k r.2 else none

/-- monoTokens cur ts: every row element of ts (up to the end of the
sheetData container) carries an effective row number strictly above the
previous one, starting from cur.  This is the well-formedness condition a
worksheet stream with ascending row numbers satisfies. -/
def monoTokens (cur : Int) : List XToken → Bool
  | [] => true
  | XToken.rowStart r :: rest => (decide (cur < effRow cur r)) && monoTokens (effRow cur r) rest
  | XToken.sheetDataEnd :: _ => true
  | XToken.other :: rest => monoTokens cur rest

/- ------------------------------------------------------------------
Row mutation engine: the in-memory row store and the InsertRows /
RemoveRow operations.
------------------------------------------------------------------ -/

/-- A stored worksheet row of the in-memory row store: its row number
(field R in the source) and its content, kept opaque as a list of cell
payload strings. -/
structure MRow where
  r : Int
  content : List String
  deriving DecidableEq, Repr

/-- Modelled from the spec: the row shift performed by the external
adjustHelper collaborator for a row removal (not part of the given source
files).  Every Row with number greater than the removed row is shifted by
minus one. -/
def specShiftRemove (row : Int) (rs : List MRow) : List MRow :=
  rs.map fun x => if row < x.r then { x with r := x.r - 1 } else x

/-- Modelled from the spec: the row shift performed by the external
adjustHelper collaborator for a row insertion (not part of the given
source files).  Every Row with number at least the insert position is
shifted by plus count; the operation fails with the row-limit error when
that would push a row number past the maximum row bound, before touching
the row store. -/
def specShiftInsert (row n : Int) (rs : List MRow) : Except Err (List MRow) :=
  if rs.any fun x => decide (row ≤ x.r) && decide (TotalRows < x.r + n) then
    Except.error Err.maxRows
  else
    Except.ok (rs.map fun x => if row ≤ x.r then { x with r := x.r + n } else x)

/-- The keep-compaction loop of RemoveRow: every stored Row whose number
differs from the removed row is kept, in order; the rest are dropped. -/
def compactKeep (row : Int) : List MRow → List MRow
  | [] => []
  | x :: rest =>
    if x.r ≠ row then x :: compactKeep row rest else compactKeep row rest

/-- File.RemoveRow on the row store of one worksheet: reject row numbers
below one; when the requested row number exceeds the length of the row
slice only the shift runs; otherwise the compaction loop drops rows
numbered row and then the shift runs. -/
def removeRow (rs : List MRow) (row : Int) : Except Err (List MRow) :=
  if row < 1 then Except.error Err.invalidRowNumber
  else if (rs.length : Int) < row then Except.ok (specShiftRemove row rs)
  else Except.ok (specShiftRemove row (compactKeep row rs))

/-- File.InsertRows on the row store of one worksheet: reject row numbers
below one, positions or counts at or past the maximum row bound, and
counts below one, in this order, before delegating to the insert shift. -/
def insertRows (rs : List MRow) (row n : Int) : Except Err (List MRow) :=
  if row < 1 then Except.error Err.invalidRowNumber
  else if TotalRows ≤ row ∨ TotalRows ≤ n then Except.error Err.maxRows
  else if n < 1 then Except.error Err.parameterInvalid
  else specShiftInsert row n rs

/- ------------------------------------------------------------------
Merge ranges and File.duplicateMergeCells.  Range references are stored
as decoded corner coordinates, so the reference parsing of the source
cannot fail here; a nil merge-cell list is modelled by the empty list.
------------------------------------------------------------------ -/

/-- A merged rectangular cell range, as the decoded coordinates of its
top-left (x1, y1) and bottom-right (x2, y2) corners. -/
structure MergeRange where
  x1 : Int
  y1 : Int
  x2 : Int
  y2 : Int
  deriving DecidableEq, Repr

/-- The merge range that duplicateMergeCells creates at the destination
row: same column span, both corners on row2. -/
def propAt (row2 : Int) (c : MergeRange) : MergeRange :=
  ⟨c.x1, row2, c.x2, row2⟩

/-- The propagation condition of the second loop of duplicateMergeCells: a
single-row range sitting on the (adjusted) source row. -/
def isSingleAt (row : Int) (c : MergeRange) : Bool :=
  decide (c.y1 = c.y2) && decide (c.y1 = row)

/-- The second loop of duplicateMergeCells: Go iterates by index while
MergeCell appends to the same slice, so newly created ranges are visited
too; the fuel bounds the number of visited elements (none on
exhaustion). -/
def dmcLoop : Nat → Int → Int → List MergeRange → List MergeRange →
    Option (List MergeRange)
  | 0, _, _, _, _ => none
  | _ + 1, _, _, done, [] => some done
  | fuel + 1, row, row2, done, c :: todo =>
    if isSingleAt row c then
      dmcLoop fuel row row2 (done ++ [c]) (todo ++ [propAt row2 c])
    else
      dmcLoop fuel row row2 (done ++ [c]) todo

/-- File.duplicateMergeCells: when duplicating upward the source row number
is first incremented (it was shifted by the insertion); when the
destination row lies strictly between the corner rows of some range, the
whole propagation is skipped silently; otherwise every single-row range on
the adjusted source row is replicated onto the destination row. -/
def duplicateMergeCells (cells : List MergeRange) (row row2 : Int) :
    Option (List MergeRange) :=
  let r := if row2 < row then row + 1 else row
  if cells.any fun c => decide (c.y1 < row2) && decide (row2 < c.y2) then
    some cells
  else
    dmcLoop (2 * cells.length + 1) r row2 [] cells

/- ------------------------------------------------------------------
File.DuplicateRowTo with explicit slice backing storage.  To express the
independence of the duplicated row's cells, slice aliasing is made
explicit: the worksheet keeps a heap of cell arrays and each row holds the
heap index of its cell array.  deepcopy.Copy and the
append(make([]xlsxC, 0, ...), ...) statement each allocate a fresh array.
------------------------------------------------------------------ -/

/-- A cell of the duplication model: its coordinate and its value. -/
structure HCell where
  col : Int
  row : Int
  v : String
  deriving DecidableEq, Repr

/-- A stored row of the duplication model: the row number and the heap
index of the backing cell array. -/
structure HRow where
  r : Int
  ptr : Nat
  deriving DecidableEq, Repr

/-- A worksheet of the duplication model: the row slice plus the heap of
cell arrays the rows point into. -/
structure HeapWS where
  rows : List HRow
  heap : List (List HCell)
  deriving DecidableEq, Repr

/-- Modelled from the spec: the insert shift of the external adjustHelper
collaborator on the duplication model; rows keep their cell arrays, only
row numbers at or past the insert position move up, and the operation
fails with the row-limit error when a row number would pass the maximum
row bound. -/
def specShiftInsertH (row n : Int) (rs : List HRow) : Except Err (List HRow) :=
  if rs.any fun x => decide (row ≤ x.r) && decide (TotalRows < x.r + n) then
    Except.error Err.maxRows
  else
    Except.ok (rs.map fun x => if row ≤ x.r then { x with r := x.r + n } else x)

/-- Modelled from the spec: rewriting of every duplicated cell's coordinate
by the row delta (adjustSingleRowDimensions, not part of the given source
files); the external formula adjuster leaves the uninterpreted cell values
unchanged. -/
def adjustCells (delta : Int) (cs : List HCell) : List HCell :=
  cs.map fun c => { c with row := c.row + delta }

/-- The tail of DuplicateRowTo: allocate the second fresh array (the
append(make(...), ...) statement), rewrite its coordinates in place by the
row delta, and place the copied row — overwriting the row found at the
destination number, or appending when there is none. -/
def dupPlace (row row2 : Int) (contents : List HCell)
    (heap1 : List (List HCell)) (shifted : List HRow) : HeapWS :=
  match shifted.findIdx? fun x => decide (x.r = row2) with
  | some i =>
    { rows := shifted.set i ⟨row2, heap1.length⟩,
      heap := (heap1 ++ [contents]).set heap1.length
        (adjustCells (row2 - row) contents) }
  | none =>
    { rows := shifted ++ [⟨row2, heap1.length⟩],
      heap := (heap1 ++ [contents]).set heap1.length
        (adjustCells (row2 - row) contents) }

/-- File.DuplicateRowTo, statement by statement: reject row numbers below
one; do nothing when the destination is below one or equals the source;
deep-copy the first row numbered row into a fresh array; run the insert
shift at the destination; stop when there was no source row; stop when no
row carries the destination number but the row slice already holds at
least row2 rows; otherwise copy and place the row. -/
def duplicateRowTo (ws : HeapWS) (row row2 : Int) : Except Err HeapWS :=
  if row < 1 then Except.error Err.invalidRowNumber
  else if row2 < 1 ∨ row = row2 then Except.ok ws
  else
    match ws.rows.find? fun x => decide (x.r = row) with
    | none =>
      match specShiftInsertH row2 1 ws.rows with
      | Except.error e => Except.error e
      | Except.ok shifted => Except.ok { ws with rows := shifted }
    | some src =>
      match specShiftInsertH row2 1 ws.rows with
      | Except.error e => Except.error e
      | Except.ok shifted =>
        if (shifted.findIdx? fun x => decide (x.r = row2)) = none ∧
            row2 ≤ (shifted.length : Int) then
          Except.ok { rows := shifted, heap := ws.heap ++ [ws.heap.getD src.ptr []] }
        else
          Except.ok (dupPlace row row2 (ws.heap.getD src.ptr [])
            (ws.heap ++ [ws.heap.getD src.ptr []]) shifted)

/-- Mutation of one cell of the array at heap index p: a write through a
row's slice pointer. -/
def setCell (ws : HeapWS) (p i : Nat) (c : HCell) : HeapWS :=
  { ws with heap := ws.heap.set p ((ws.heap.getD p []).set i c) }

/- ------------------------------------------------------------------
Rows.Columns cell materialization (rowXMLHandler and appendSpace).  Value
resolution through the shared string table (getValueFrom) is abstracted
into the cell's resolved value; the padding and column bookkeeping follow
the source. -/

/-- A cell element of a streamed row as seen by rowXMLHandler: the column
decoded from its cell reference when the reference attribute is present,
its resolved value, and whether it carries a formula. -/
structure SCell where
  rRef : Option Nat
  val : String
  hasF : Bool
  deriving DecidableEq, Repr

/-- appendSpace: append length minus one blank strings to the slice. -/
def appendSpace (l : Int) (s : List String) : List String :=
  s ++ List.replicate (l - 1).toNat ""

/-- The column a cell element receives: the positional column is first
incremented, then overridden by the decoded cell reference when present. -/
def colOfCell (cur : Int) (c : SCell) : Int :=
  match c.rRef with
  | some k => (k : Int)
  | none => cur + 1

/-- One cell step of rowXMLHandler: the cell contributes its resolved
value, preceded by blank padding up to its column, only when the value is
non-empty or the cell carries a formula. -/
def rowXMLHandler (st : Int × List String) (c : SCell) : Int × List String :=
  if c.val ≠ "" ∨ c.hasF = true then
    (colOfCell st.1 c,
      appendSpace (colOfCell st.1 c - (st.2.length : Int)) st.2 ++ [c.val])
  else (colOfCell st.1 c, st.2)

/-- Rows.Columns on one streamed row: fold the row's cell elements through
rowXMLHandler starting from column zero with no materialized cells. -/
def columnsOf (cells : List SCell) : List String :=
  (cells.foldl rowXMLHandler (0, [])).2

/-- A cell with an explicit reference, no formula, and the given resolved
value. -/
def refCell (p : Nat × String) : SCell := ⟨some p.1, p.2, false⟩

/-- ascFromB last l: the columns of l are strictly increasing and all lie
strictly above last (the data-model invariant that a row's cells are
ordered by ascending column). -/
def ascFromB (last : Nat) : List (Nat × String) → Bool
  | [] => true
  | p :: rest => decide (last < p.1) && ascFromB p.1 rest

/-- The column of the row's last cell (the value last when the row is
empty). -/
def lastColFrom (last : Nat) : List (Nat × String) → Nat
  | [] => last
  | p :: rest => lastColFrom p.1 rest

/-- The padded value sequence of a row: blanks between the previous
materialized column and each cell's column, then the cell's value. -/
def paddedOf : Nat → List (Nat × String) → List String
  | _, [] => []
  | last, p :: rest => List.replicate (p.1 - 1 - last) "" ++ p.2 :: paddedOf p.1 rest

/- ------------------------------------------------------------------
xlsxWorksheet.checkRow row normalization.  Cell references are modelled as
decoded (column, row) coordinate pairs, so the reference codec of the
source cannot fail here; a missing reference attribute is none.
------------------------------------------------------------------ -/

/-- A stored worksheet cell for normalization: the decoded reference (none
when the cell element carries no r attribute) and the value. -/
structure NCell where
  ref : Option (Nat × Nat)
  v : Option String
  deriving DecidableEq, Repr

/-- The column of a cell's decoded reference (0 when absent). -/
def ncCol (c : NCell) : Nat := (c.ref.getD (0, 0)).1

/-- The first pass of checkRow: walk the cells counting columns; a cell
with a reference raises the counter to its column when that is larger,
and a cell without one receives the synthesized reference (counter,
rowNum). -/
def checkRowPass1 (rowNum rCount : Nat) : List NCell → List NCell
  | [] => []
  | c :: rest =>
    match c.ref with
    | some kr => c :: checkRowPass1 rowNum (max (rCount + 1) kr.1) rest
    | none =>
      { c with ref := some (rCount + 1, rowNum) } ::
        checkRowPass1 rowNum (rCount + 1) rest

/-- The placement loop of the dense rebuild: write each source cell into
the target array at its decoded column index; a column outside the array
bounds is the Go slice-index panic. -/
def placeCells : List NCell → List NCell → Except Err (List NCell)
  | acc, [] => Except.ok acc
  | acc, c :: rest =>
    match c.ref with
    | some kr =>
      if 1 ≤ kr.1 ∧ kr.1 ≤ acc.length then placeCells (acc.set (kr.1 - 1) c) rest
      else Except.error Err.indexOutOfRange
    | none => Except.error Err.indexOutOfRange

/-- The column decoded from the row's last cell (0 for an empty row or a
missing reference). -/
def lastRefCol (cells : List NCell) : Nat :=
  ((cells.getLast?.bind fun c => c.ref).getD (0, 0)).1

/-- checkRow on one row of the worksheet (the body of its loop over the
rows, rowNum being the slice position plus one): skip empty rows; run the
reference-synthesizing pass; when the cell count is below the column of
the last cell, rebuild the row as a dense placeholder array from column 1
up to that column and place each original cell at its decoded column. -/
def checkRowOne (rowNum : Nat) (cells : List NCell) : Except Err (List NCell) :=
  if cells.length = 0 then Except.ok cells
  else
    let p := checkRowPass1 rowNum 0 cells
    if cells.length < lastRefCol p then
      placeCells
        ((List.range (lastRefCol p)).map fun i => ⟨some (i + 1, rowNum), none⟩) p
    else Except.ok p

/-- ncAscFrom last cells: every cell carries a reference and the reference
columns are strictly increasing, starting strictly above last (the
data-model invariant that a row's cells are ordered by ascending
column). -/
def ncAscFrom (last : Nat) : List NCell → Bool
  | [] => true
  | c :: rest =>
    match c.ref with
    | some kr => decide (last < kr.1) && ncAscFrom kr.1 rest
    | none => false

/-- The densified row the normalization is expected to produce, following
the spec's words: for each column up to the last cell's column, the
original cell at that column when there is one, otherwise a placeholder
cell carrying only the synthesized coordinate and no value. -/
def densifiedRow (rowNum : Nat) (cells : List NCell) : List NCell :=
  (List.range (lastRefCol cells)).map fun j =>
    (cells.find? fun c => decide (ncCol c = j + 1)).getD ⟨some (j + 1, rowNum), none⟩

/- ------------------------------------------------------------------
File.getFromStringItem: the shared-string offset index.  The spooled
temporary file is modelled as a character sequence; the string items are
the rendered texts appended during the one-time build.
------------------------------------------------------------------ -/

/-- The build loop of getFromStringItem: append each rendered string item
to the spooled file and record its [startOffset, endOffset) pair, off
being the running offset. -/
def buildAux (off : Nat) : List (List Char) → List Char × List (Nat × Nat)
  | [] => ([], [])
  | s :: rest =>
    let r := buildAux (off + s.length) rest
    (s ++ r.1, (off, off + s.length) :: r.2)

/-- The spooled shared-string file and its offset index, built once from
the rendered string items. -/
def buildSST (strs : List (List Char)) : List Char × List (Nat × Nat) :=
  buildAux 0 strs

/-- File.getFromStringItem after the build: an index at or past the item
count yields the index's decimal string representation; otherwise the
recorded offset range is read back from the spooled file, falling back to
the decimal representation when the read returns fewer bytes than
requested. -/
def getFromStringItem (file : List Char) (items : List (Nat × Nat))
    (index : Nat) : List Char :=
  if items.length ≤ index then (Nat.repr index).data
  else if (items.getD index (0, 0)).1 +
      ((items.getD index (0, 0)).2 - (items.getD index (0, 0)).1) ≤ file.length then
    (file.drop (items.getD index (0, 0)).1).take
      ((items.getD index (0, 0)).2 - (items.getD index (0, 0)).1)
  else (Nat.repr index).data

/-- The total length of a list of string items. -/
def lenSum (l : List (List Char)) : Nat := (l.map List.length).sum

/- ------------------------------------------------------------------
DataValidation.SetDropList (datavalidation.go).  Formula strings are
modelled as character sequences (Go strings are converted to runes before
the UTF-16 encoding anyway). -/

/-- The DataValidation object fields SetDropList touches. -/
structure DataValidation where
  allowBlank : Bool
  type : String
  formula1 : String
  formula2 : String
  operator : String
  sqref : String
  deriving DecidableEq, Repr

/-- Number of UTF-16 code units of one rune: code points below 0x10000
take one unit, the rest a surrogate pair. -/
def utf16UnitLen (c : Char) : Nat := if c.val < 0x10000 then 1 else 2

/-- UTF-16 code-unit length of a rune sequence (utf16.Encode length). -/
def utf16Length (s : List Char) : Nat := (s.map utf16UnitLen).sum

/-- strings.Join with the comma separator. -/
def joinComma : List String → List Char
  | [] => []
  | [s] => s.data
  | s :: rest => s.data ++ ',' :: joinComma rest

/-- The Excel escaping of data validation formulas (formulaEscaper):
ampersand, less-than and greater-than become XML entities. -/
def formulaEscaper (s : List Char) : List Char :=
  s.flatMap fun c =>
    if c = '&' then ['&', 'a', 'm', 'p', ';']
    else if c = '<' then ['&', 'l', 't', ';']
    else if c = '>' then ['&', 'g', 't', ';']
    else [c]

/-- The doubling of double quotes inside a literal drop list. -/
def quoteEscaper (s : List Char) : List Char :=
  s.flatMap fun c => if c = '"' then ['"', '"'] else [c]

/-- DataValidation.SetDropList: join the keys with commas; fail with the
formula-length error when the UTF-16 code-unit length exceeds the field
limit, leaving the object untouched; otherwise write the list type and
the escaped formula (quoted unless it is an = formula). -/
def setDropList (dv : DataValidation) (keys : List String) :
    DataValidation × Option Err :=
  if MaxFieldLength < utf16Length (joinComma keys) then
    (dv, some Err.formulaLength)
  else if (joinComma keys).head? = some '=' then
    ({ dv with
        type := "list",
        formula1 := ⟨formulaEscaper (joinComma keys)⟩ }, none)
  else
    ({ dv with
        type := "list",
        formula1 := ⟨'"' :: (quoteEscaper (formulaEscaper (joinComma keys)) ++ ['"'])⟩ },
      none)

/- ------------------------------------------------------------------
The read-only row attribute getters GetRowVisible, GetRowOutlineLevel and
GetRowHeight.  Row heights are exact rationals here; GetRowHeight only
copies height values, it performs no floating-point arithmetic.
------------------------------------------------------------------ -/

/-- The sheet-level format defaults (sheetFormatPr). -/
structure SheetFormatPr where
  customHeight : Bool
  defaultRowHeight : ℚ
  deriving DecidableEq, Repr

/-- A stored row as the attribute getters see it: row number, optional
explicit height, hidden flag and outline level. -/
structure WRow where
  r : Int
  ht : Option ℚ
  hidden : Bool
  outlineLevel : Nat
  deriving DecidableEq, Repr

/-- A worksheet for the attribute getters: its row slice and optional
format defaults. -/
structure WSheet where
  rows : List WRow
  sheetFormatPr : Option SheetFormatPr
  deriving DecidableEq, Repr

/-- File.GetRowVisible: invalid below row one; false for a row past the
stored slice; otherwise the negated hidden flag of the stored row. -/
def getRowVisible (ws : WSheet) (row : Int) : Except Err Bool :=
  if row < 1 then Except.error Err.invalidRowNumber
  else if (ws.rows.length : Int) < row then Except.ok false
  else Except.ok (!(ws.rows.getD (row - 1).toNat ⟨0, none, false, 0⟩).hidden)

/-- File.GetRowOutlineLevel: invalid below row one; zero for a row past
the stored slice; otherwise the stored outline level. -/
def getRowOutlineLevel (ws : WSheet) (row : Int) : Except Err Nat :=
  if row < 1 then Except.error Err.invalidRowNumber
  else if (ws.rows.length : Int) < row then Except.ok 0
  else Except.ok (ws.rows.getD (row - 1).toNat ⟨0, none, false, 0⟩).outlineLevel

/-- The sheet default height as GetRowHeight computes it: the customized
sheet-format default when present and flagged, the library default
otherwise. -/
def sheetDefaultHeight (ws : WSheet) : ℚ :=
  match ws.sheetFormatPr with
  | some pr => if pr.customHeight then pr.defaultRowHeight else defaultRowHeight
  | none => defaultRowHeight

/-- File.GetRowHeight: invalid below row one; the sheet default for a row
past the stored slice; otherwise the first stored row carrying this
number and an explicit height, defaulting to the sheet default. -/
def getRowHeight (ws : WSheet) (row : Int) : Except Err ℚ :=
  if row < 1 then Except.error Err.invalidRowNumber
  else if (ws.rows.length : Int) < row then Except.ok (sheetDefaultHeight ws)
  else
    match ws.rows.find? fun v => decide (v.r = row) && v.ht.isSome with
    | some v => Except.ok (v.ht.getD 0)
    | none => Except.ok (sheetDefaultHeight ws)

/- ------------------------------------------------------------------
Theorems for claim C1.
------------------------------------------------------------------ -/

/-- A true-returning nextLoop lands strictly above the starting curRow and
keeps the stream monotone, provided the stream was monotone. -/
theorem nextLoop_mono (cur : Int) (ts : List XToken)
    (hm : monoTokens cur ts = true) (ht : (nextLoop cur ts).1 = true) :
    cur < (nextLoop cur ts).2.1 ∧
      monoTokens (nextLoop cur ts).2.1 (nextLoop cur ts).2.2 = true := by
  induction ts with
  | nil => simp [nextLoop] at ht
  | cons t rest ih =>
    cases t with
    | rowStart r =>
      simp only [monoTokens, Bool.and_eq_true, decide_eq_true_eq] at hm
      exact ⟨hm.1, hm.2⟩
    | sheetDataEnd => simp [nextLoop] at ht
    | other =>
      simp only [monoTokens] at hm
      simpa [nextLoop] using ih hm (by simpa [nextLoop] using ht)

/-- A true-returning Next call preserves both curRow ≥ seekRow and the
monotonicity of the remaining stream. -/
theorem next_preserves (s : RowsState)
    (h1 : s.seekRow ≤ s.curRow) (h2 : monoTokens s.curRow s.stream = true)
    (ht : (next s).1 = true) :
    (next s).2.seekRow ≤ (next s).2.curRow ∧
      monoTokens (next s).2.curRow (next s).2.stream = true := by
  unfold next at *
  by_cases hb : s.seekRow + 1 ≤ s.curRow
  · simp only [hb, if_pos, if_true] at *
    exact ⟨hb, h2⟩
  · simp only [hb, if_neg, if_false] at *
    have hmono := nextLoop_mono s.curRow s.stream h2 ht
    exact ⟨by omega, hmono.2⟩

/-- Helper: over a monotone stream, any sequence of true-returning Next
calls keeps curRow ≥ seekRow. -/
theorem nextCalls_inv (k : Nat) : ∀ s s' : RowsState,
    s.seekRow ≤ s.curRow → monoTokens s.curRow s.stream = true →
    nextCalls k s = some s' → s'.seekRow ≤ s'.curRow := by
  induction k with
  | zero =>
    intro s s' h1 _ h
    simp only [nextCalls, Option.some.injEq] at h
    exact h ▸ h1
  | succ k ih =>
    intro s s' h1 h2 h
    simp only [nextCalls] at h
    by_cases hb : (next s).1 = true
    · rw [if_pos hb] at h
      have hp := next_preserves s h1 h2 hb
      exact ih (next s).2 s' hp.1 hp.2 h
    · rw [if_neg hb] at h
      exact absurd h (by simp)

/-- C1, counterexample: the claim fails as stated.  On an empty stream the
first Next call returns false and leaves curRow = 0 < 1 = seekRow; and on
a stream whose row elements carry the explicit r attributes 5 and then 1,
six Next calls all return true yet end with curRow = 1 < 6 = seekRow. -/
theorem C1_counterexample :
    ((next ⟨0, 0, []⟩).2.curRow < (next ⟨0, 0, []⟩).2.seekRow) ∧
    (nextCalls 6 ⟨0, 0, [XToken.rowStart 5, XToken.rowStart 1]⟩ =
        some ⟨1, 6, []⟩ ∧
      (⟨1, 6, []⟩ : RowsState).curRow < (⟨1, 6, []⟩ : RowsState).seekRow) := by
  decide

/-- C1 (amended): over a worksheet stream whose row elements carry strictly
increasing effective row numbers (each explicit r attribute exceeds the
previous effective row number), after every Next call of a sequence in
which each call returned true, the cursor satisfies curRow ≥ seekRow. -/
theorem C1_next_invariant (ts : List XToken) (k : Nat) (s : RowsState)
    (hm : monoTokens 0 ts = true)
    (h : nextCalls k ⟨0, 0, ts⟩ = some s) :
    s.seekRow ≤ s.curRow :=
  nextCalls_inv k ⟨0, 0, ts⟩ s (le_refl 0) hm h

/-- C1, witness: the amended invariant evaluated on a concrete two-row
stream without explicit row numbers. -/
theorem C1_next_invariant_witness :
    monoTokens 0 [XToken.rowStart 0, XToken.rowStart 0] = true ∧
    (⟨2, 2, []⟩ : RowsState).seekRow ≤ (⟨2, 2, []⟩ : RowsState).curRow :=
  ⟨by decide,
    C1_next_invariant [XToken.rowStart 0, XToken.rowStart 0] 2 ⟨2, 2, []⟩
      (by decide) (by decide)⟩

/- ------------------------------------------------------------------
Theorems for claims C2 and C3.
------------------------------------------------------------------ -/

/-- C2: for every row store, position at least one and count at least one,
InsertRows fails with the row-limit error whenever inserting n rows at the
given position would push some stored row number past the maximum row
bound; the error is produced before any row is touched (the operation
returns no updated row store). -/
theorem C2_insertRows_rowLimit (rs : List MRow) (row n : Int)
    (h1 : 1 ≤ row) (h2 : 1 ≤ n)
    (h3 : ∃ x ∈ rs, row ≤ x.r ∧ TotalRows < x.r + n) :
    insertRows rs row n = Except.error Err.maxRows := by
  unfold insertRows
  rw [if_neg (by omega)]
  by_cases hb : TotalRows ≤ row ∨ TotalRows ≤ n
  · rw [if_pos hb]
  · rw [if_neg hb, if_neg (by omega)]
    unfold specShiftInsert
    rw [if_pos]
    rcases h3 with ⟨x, hx, hle, hlt⟩
    exact List.any_eq_true.mpr ⟨x, hx, by simp [hle, hlt]⟩

/-- C2, witness: inserting one row at position one fails when the store
already holds a row at the maximum row number. -/
theorem C2_insertRows_rowLimit_witness :
    insertRows [⟨TotalRows, []⟩] 1 1 = Except.error Err.maxRows :=
  C2_insertRows_rowLimit [⟨TotalRows, []⟩] 1 1 (by decide) (by decide)
    ⟨⟨TotalRows, []⟩, by simp, by decide, by decide⟩

/-- The compaction loop of RemoveRow keeps exactly the rows whose number
differs from the removed row, in order. -/
theorem compactKeep_eq_filter (row : Int) (rs : List MRow) :
    compactKeep row rs = rs.filter fun x => x.r != row := by
  induction rs with
  | nil => rfl
  | cons x rest ih =>
    by_cases h : x.r = row
    · simp [compactKeep, List.filter, h, ih]
    · have hb : (x.r != row) = true := by simp [h]
      simp [compactKeep, List.filter, h, ih, hb]

/-- C3, counterexample: the claim fails as stated.  On a sparse row store
holding the single Row numbered 5 (at slice position 0), RemoveRow 5 skips
the drop because 5 exceeds the slice length 1: the Row numbered 5 survives
with its content although the claim requires it to be dropped. -/
theorem C3_counterexample :
    removeRow [⟨5, ["a"]⟩] 5 = Except.ok [⟨5, ["a"]⟩] ∧
      (⟨5, ["a"]⟩ : MRow).r = 5 := by
  constructor
  · rfl
  · rfl

/-- C3 (amended): for every row store and row at least one, when row does
not exceed the number of stored Rows, RemoveRow drops every stored Row
whose number equals row and shifts every Row with greater number down by
one; when row exceeds the stored-row count (as happens on a sparse store
whose Row numbered row sits at a slice position below row), the drop is
skipped and only the shift runs, so such a Row survives. -/
theorem C3_removeRow (rs : List MRow) (row : Int) (h1 : 1 ≤ row) :
    (row ≤ (rs.length : Int) →
      removeRow rs row =
        Except.ok (specShiftRemove row (rs.filter fun x => x.r != row))) ∧
    ((rs.length : Int) < row →
      removeRow rs row = Except.ok (specShiftRemove row rs)) := by
  constructor
  · intro hle
    unfold removeRow
    rw [if_neg (by omega), if_neg (by omega), compactKeep_eq_filter]
  · intro hlt
    unfold removeRow
    rw [if_neg (by omega), if_pos hlt]

/-- C3, witness: removing row 1 from a one-row store drops the row. -/
theorem C3_removeRow_witness :
    removeRow [⟨1, ["x"]⟩] 1 =
      Except.ok (specShiftRemove 1 (List.filter (fun x => x.r != 1) [⟨1, ["x"]⟩])) :=
  (C3_removeRow [⟨1, ["x"]⟩] 1 (by decide)).1 (by decide)

/- ------------------------------------------------------------------
Theorems for claim C4.
------------------------------------------------------------------ -/

/-- A propagated range never satisfies the propagation condition when the
adjusted source row differs from the destination row. -/
theorem isSingleAt_propAt (r row2 : Int) (h : r ≠ row2) (c : MergeRange) :
    isSingleAt r (propAt row2 c) = false := by
  simp [isSingleAt, propAt]
  omega

/-- With enough fuel the growing loop of duplicateMergeCells terminates and
returns the processed list followed by one propagated range per matching
single-row range, in order. -/
theorem dmcLoop_spec (r row2 : Int) (h : r ≠ row2) :
    ∀ fuel todo done, (todo.filter (isSingleAt r)).length + todo.length < fuel →
      dmcLoop fuel r row2 done todo =
        some (done ++ todo ++ (todo.filter (isSingleAt r)).map (propAt row2)) := by
  intro fuel
  induction fuel with
  | zero => intro todo done hm; omega
  | succ fuel ih =>
    intro todo done hm
    cases todo with
    | nil => simp [dmcLoop]
    | cons c rest =>
      by_cases hc : isSingleAt r c = true
      · rw [dmcLoop, if_pos hc]
        have hp := isSingleAt_propAt r row2 h c
        have hmeas :
            ((rest ++ [propAt row2 c]).filter (isSingleAt r)).length +
              (rest ++ [propAt row2 c]).length < fuel := by
          simp only [List.filter_append, List.length_append, List.filter_cons,
            List.length_cons, hc, if_pos] at hm ⊢
          simp [hp] at hm ⊢
          omega
        rw [ih (rest ++ [propAt row2 c]) (done ++ [c]) hmeas]
        simp [List.filter_append, List.filter_cons, hc, hp]
      · rw [dmcLoop, if_neg hc]
        have hmeas : (rest.filter (isSingleAt r)).length + rest.length < fuel := by
          simp only [List.filter_cons, List.length_cons] at hm
          rw [if_neg hc] at hm
          omega
        rw [ih rest (done ++ [c]) hmeas]
        simp [List.filter_cons, hc]

/-- C4, counterexample: the claim fails as stated.  The destination row 7
intersects the multi-row merge range spanning rows 7 to 9 (it is its top
row), yet the single-row merge at source row 5 is still propagated to row
7 instead of being skipped. -/
theorem C4_counterexample :
    duplicateMergeCells [⟨1, 7, 2, 9⟩, ⟨1, 5, 3, 5⟩] 5 7 =
        some [⟨1, 7, 2, 9⟩, ⟨1, 5, 3, 5⟩, ⟨1, 7, 3, 7⟩] ∧
      ([(⟨1, 7, 2, 9⟩ : MergeRange), ⟨1, 5, 3, 5⟩].any fun c =>
        decide (c.y1 < c.y2) && decide (c.y1 ≤ 7) && decide (7 ≤ c.y2)) = true := by
  decide

/-- C4 (amended): for every merge-range list, source row at least one and
destination row at least one and distinct from the source: when the
destination row lies strictly between the top and bottom rows of some
merge range, the whole propagation is skipped silently with no error;
otherwise (including when the destination row equals the top or bottom row
of a multi-row range) every single-row merge range on the adjusted source
row (source + 1 when the destination is above the source) is replicated
at the destination row with the same column span. -/
theorem C4_duplicateMergeCells (cells : List MergeRange) (row row2 : Int)
    (h1 : 1 ≤ row) (h2 : 1 ≤ row2) (hne : row ≠ row2) :
    ((cells.any fun c => decide (c.y1 < row2) && decide (row2 < c.y2)) = true →
      duplicateMergeCells cells row row2 = some cells) ∧
    ((cells.any fun c => decide (c.y1 < row2) && decide (row2 < c.y2)) = false →
      duplicateMergeCells cells row row2 =
        some (cells ++
          (cells.filter (isSingleAt (if row2 < row then row + 1 else row))).map
            (propAt row2))) := by
  constructor
  · intro hin
    rw [duplicateMergeCells, if_pos hin]
  · intro hin
    rw [duplicateMergeCells, if_neg (by simp [hin])]
    have hr : (if row2 < row then row + 1 else row) ≠ row2 := by
      by_cases hlt : row2 < row
      · rw [if_pos hlt]; omega
      · rw [if_neg hlt]; omega
    have hfilter := List.length_filter_le
      (isSingleAt (if row2 < row then row + 1 else row)) cells
    rw [dmcLoop_spec (if row2 < row then row + 1 else row) row2 hr
      (2 * cells.length + 1) cells [] (by omega)]
    simp

/-- C4, witness: a single-row merge at source row 4 is replicated to the
free destination row 6. -/
theorem C4_duplicateMergeCells_witness :
    duplicateMergeCells [⟨1, 4, 2, 4⟩] 4 6 =
      some [⟨1, 4, 2, 4⟩, ⟨1, 6, 2, 6⟩] := by
  have h := (C4_duplicateMergeCells [⟨1, 4, 2, 4⟩] 4 6 (by decide) (by decide)
    (by decide)).2 (by decide)
  simpa using h

/- ------------------------------------------------------------------
Theorems for claim C5.
------------------------------------------------------------------ -/

/-- After a successful insert shift at row2, no row carries the number
row2 and every row keeps the pointer of some pre-shift row. -/
theorem specShiftInsertH_mem (row2 : Int) (rs out : List HRow)
    (h : specShiftInsertH row2 1 rs = Except.ok out) :
    ∀ x ∈ out, x.r ≠ row2 ∧ ∃ y ∈ rs, x.ptr = y.ptr := by
  unfold specShiftInsertH at h
  by_cases hc : (rs.any fun x => decide (row2 ≤ x.r) && decide (TotalRows < x.r + 1)) = true
  · rw [if_pos hc] at h; exact absurd h (by simp)
  · rw [if_neg hc] at h
    have hout : out = rs.map fun x => if row2 ≤ x.r then { x with r := x.r + 1 } else x := by
      injection h with h'
      exact h'.symm
    subst hout
    intro x hx
    obtain ⟨y, hy, hxy⟩ := List.mem_map.mp hx
    by_cases hle : row2 ≤ y.r
    · rw [if_pos hle] at hxy
      subst hxy
      exact ⟨by simp; omega, y, hy, rfl⟩
    · rw [if_neg hle] at hxy
      subst hxy
      exact ⟨by omega, y, hy, rfl⟩

/-- C5: for every worksheet containing a row numbered row, after a
successful DuplicateRowTo with destination at least one and distinct from
the source, any row carrying the destination number has backing storage
disjoint from any row carrying the (shifted) source number: the pointers
differ, and a cell write through the destination row's pointer leaves the
source row's cell array unchanged. -/
theorem C5_duplicateRowTo_independent (ws : HeapWS) (row row2 : Int) (ws' : HeapWS)
    (hv : ∀ x ∈ ws.rows, x.ptr < ws.heap.length)
    (hsrc : ∃ x ∈ ws.rows, x.r = row)
    (h2 : 1 ≤ row2) (hne : row ≠ row2)
    (h : duplicateRowTo ws row row2 = Except.ok ws') :
    ∀ rT ∈ ws'.rows, rT.r = row2 →
      ∀ rS ∈ ws'.rows, rS.r = (if row2 < row then row + 1 else row) →
        rT.ptr ≠ rS.ptr ∧
          ∀ i c, (setCell ws' rT.ptr i c).heap.getD rS.ptr [] =
            ws'.heap.getD rS.ptr [] := by
  have key : ∀ x ∈ ws'.rows,
      (x.r = row2 → x.ptr = ws.heap.length + 1) ∧
      (x.r ≠ row2 → x.ptr < ws.heap.length) := by
    by_cases hrow : row < 1
    · rw [duplicateRowTo, if_pos hrow] at h
      exact absurd h (by simp)
    rw [duplicateRowTo, if_neg hrow, if_neg (by omega)] at h
    cases hfind : ws.rows.find? fun x => decide (x.r = row) with
    | none =>
      rw [hfind] at h
      cases hshift : specShiftInsertH row2 1 ws.rows with
      | error e => rw [hshift] at h; exact absurd h (by simp)
      | ok shifted =>
        rw [hshift] at h
        simp only [Except.ok.injEq] at h
        subst h
        intro x hx
        obtain ⟨hne2, y, hy, hptr⟩ := specShiftInsertH_mem row2 ws.rows shifted hshift x hx
        exact ⟨fun hr => absurd hr hne2, fun _ => hptr ▸ hv y hy⟩
    | some src =>
      rw [hfind] at h
      cases hshift : specShiftInsertH row2 1 ws.rows with
      | error e => rw [hshift] at h; exact absurd h (by simp)
      | ok shifted =>
        rw [hshift] at h
        simp only at h
        have hmem := specShiftInsertH_mem row2 ws.rows shifted hshift
        by_cases hskip : (shifted.findIdx? fun x => decide (x.r = row2)) = none ∧
            row2 ≤ (shifted.length : Int)
        · rw [if_pos hskip] at h
          simp only [Except.ok.injEq] at h
          subst h
          intro x hx
          simp only at hx
          obtain ⟨hne2, y, hy, hptr⟩ := hmem x hx
          exact ⟨fun hr => absurd hr hne2, fun _ => hptr ▸ hv y hy⟩
        · rw [if_neg hskip] at h
          simp only [Except.ok.injEq] at h
          subst h
          have hlen : (ws.heap ++ [ws.heap.getD src.ptr []]).length = ws.heap.length + 1 := by
            simp
          intro x hx
          unfold dupPlace at hx
          cases hidx : shifted.findIdx? fun x => decide (x.r = row2) with
          | some i =>
            rw [hidx] at hx
            simp only at hx
            rcases List.mem_or_eq_of_mem_set hx with hx' | hx'
            · obtain ⟨hne2, y, hy, hptr⟩ := hmem x hx'
              exact ⟨fun hr => absurd hr hne2, fun _ => hptr ▸ hv y hy⟩
            · subst hx'
              exact ⟨fun _ => hlen, fun hr => absurd rfl hr⟩
          | none =>
            rw [hidx] at hx
            simp only [List.mem_append, List.mem_singleton] at hx
            rcases hx with hx' | hx'
            · obtain ⟨hne2, y, hy, hptr⟩ := hmem x hx'
              exact ⟨fun hr => absurd hr hne2, fun _ => hptr ▸ hv y hy⟩
            · subst hx'
              exact ⟨fun _ => hlen, fun hr => absurd rfl hr⟩
  intro rT hT hTr rS hS hSr
  have hsne : rS.r ≠ row2 := by
    rw [hSr]
    by_cases hlt : row2 < row
    · rw [if_pos hlt]; omega
    · rw [if_neg hlt]; omega
  have hTp := (key rT hT).1 hTr
  have hSp := (key rS hS).2 hsne
  refine ⟨by omega, ?_⟩
  intro i c
  simp only [setCell]
  simp only [List.getD_eq_getElem?_getD]
  rw [List.getElem?_set_ne (by omega : rT.ptr ≠ rS.ptr)]

/-- C5, witness: duplicating the single row 2 of a one-row worksheet to
row 7 leaves the source row's array untouched by a write through the
duplicate's pointer. -/
theorem C5_duplicateRowTo_independent_witness :
    (⟨7, 2⟩ : HRow).ptr ≠ (⟨2, 0⟩ : HRow).ptr ∧
      ∀ i c,
        (setCell ⟨[⟨2, 0⟩, ⟨7, 2⟩], [[⟨1, 2, "a"⟩], [⟨1, 2, "a"⟩], [⟨1, 7, "a"⟩]]⟩
            (⟨7, 2⟩ : HRow).ptr i c).heap.getD (⟨2, 0⟩ : HRow).ptr [] =
          (⟨[⟨2, 0⟩, ⟨7, 2⟩], [[⟨1, 2, "a"⟩], [⟨1, 2, "a"⟩], [⟨1, 7, "a"⟩]]⟩ :
            HeapWS).heap.getD (⟨2, 0⟩ : HRow).ptr [] := by
  have h := C5_duplicateRowTo_independent
    ⟨[⟨2, 0⟩], [[⟨1, 2, "a"⟩]]⟩ 2 7
    ⟨[⟨2, 0⟩, ⟨7, 2⟩], [[⟨1, 2, "a"⟩], [⟨1, 2, "a"⟩], [⟨1, 7, "a"⟩]]⟩
    (by decide) ⟨⟨2, 0⟩, by simp, rfl⟩ (by decide) (by decide) rfl
    ⟨7, 2⟩ (by simp) rfl ⟨2, 0⟩ (by simp) (by decide)
  exact h

/- ------------------------------------------------------------------
Theorems for claim C6.
------------------------------------------------------------------ -/

/-- Every member column of an ascending column list lies strictly above
the bound. -/
theorem ascFromB_mem (l : List (Nat × String)) : ∀ last, ascFromB last l = true →
    ∀ p ∈ l, last < p.1 := by
  induction l with
  | nil => intro last _ p hp; exact absurd hp (by simp)
  | cons q rest ih =>
    intro last h p hp
    simp only [ascFromB, Bool.and_eq_true, decide_eq_true_eq] at h
    rcases List.mem_cons.mp hp with rfl | hp'
    · exact h.1
    · exact lt_trans h.1 (ih q.1 h.2 p hp')

/-- The last column of an ascending column list is at least the bound. -/
theorem lastColFrom_ge (l : List (Nat × String)) : ∀ last, ascFromB last l = true →
    last ≤ lastColFrom last l := by
  induction l with
  | nil => intro last _; exact le_refl last
  | cons q rest ih =>
    intro last h
    simp only [ascFromB, Bool.and_eq_true, decide_eq_true_eq] at h
    exact le_trans (le_of_lt h.1) (ih q.1 h.2)

/-- The fold of rowXMLHandler over explicitly referenced, non-empty-valued
cells in ascending column order materializes exactly the padded value
sequence. -/
theorem columns_fold (l : List (Nat × String)) : ∀ (last : Nat) (acc : List String),
    acc.length = last → ascFromB last l = true → (∀ p ∈ l, p.2 ≠ "") →
    (l.map refCell).foldl rowXMLHandler ((last : Int), acc) =
      ((lastColFrom last l : Int), acc ++ paddedOf last l) := by
  induction l with
  | nil => intro last acc _ _ _; simp [lastColFrom, paddedOf]
  | cons q rest ih =>
    intro last acc hlen hasc hval
    simp only [ascFromB, Bool.and_eq_true, decide_eq_true_eq] at hasc
    have hq : q.2 ≠ "" := hval q (List.mem_cons_self q rest)
    simp only [List.map_cons, List.foldl_cons]
    have hstep : rowXMLHandler ((last : Int), acc) (refCell q) =
        ((q.1 : Int), acc ++ (List.replicate (q.1 - 1 - last) "" ++ [q.2])) := by
      unfold rowXMLHandler
      simp only [refCell]
      rw [if_pos (Or.inl hq)]
      simp only [colOfCell, appendSpace, hlen]
      have harith : (((q.1 : Nat) : Int) - ((last : Nat) : Int) - 1).toNat =
          q.1 - 1 - last := by omega
      rw [harith, List.append_assoc]
    rw [hstep, ih q.1 (acc ++ (List.replicate (q.1 - 1 - last) "" ++ [q.2]))
      (by simp only [List.length_append, List.length_replicate, List.length_cons,
        List.length_nil, hlen]; omega)
      hasc.2 (fun p hp => hval p (List.mem_cons_of_mem q hp))]
    simp [lastColFrom, paddedOf, List.append_assoc]

/-- The padded value sequence reaches exactly up to the last column. -/
theorem paddedOf_length (l : List (Nat × String)) : ∀ last, ascFromB last l = true →
    (paddedOf last l).length = lastColFrom last l - last := by
  induction l with
  | nil => intro last _; simp [paddedOf, lastColFrom]
  | cons q rest ih =>
    intro last h
    simp only [ascFromB, Bool.and_eq_true, decide_eq_true_eq] at h
    have h2 := ih q.1 h.2
    have h3 := lastColFrom_ge rest q.1 h.2
    simp only [paddedOf, List.length_append, List.length_replicate,
      List.length_cons, lastColFrom]
    omega

/-- Each cell's value sits at its own column of the padded sequence. -/
theorem paddedOf_get_mem (l : List (Nat × String)) : ∀ last p, ascFromB last l = true →
    p ∈ l → (paddedOf last l)[p.1 - 1 - last]? = some p.2 := by
  induction l with
  | nil => intro last p _ hp; exact absurd hp (by simp)
  | cons q rest ih =>
    intro last p hasc hp
    simp only [ascFromB, Bool.and_eq_true, decide_eq_true_eq] at hasc
    rcases List.mem_cons.mp hp with rfl | hp'
    · rw [paddedOf, List.getElem?_append_right (by simp)]
      simp
    · have hq : q.1 < p.1 := ascFromB_mem rest q.1 hasc.2 p hp'
      have hlast : last < q.1 := hasc.1
      rw [paddedOf, List.getElem?_append_right (by simp; omega)]
      have harr : p.1 - 1 - last - (List.replicate (q.1 - 1 - last) ("" : String)).length =
          (p.1 - 1 - q.1) + 1 := by
        simp only [List.length_replicate]; omega
      rw [harr, List.getElem?_cons_succ]
      exact ih q.1 p hasc.2 hp'

/-- Every column skipped between cells holds the empty string in the
padded sequence. -/
theorem paddedOf_get_blank (l : List (Nat × String)) : ∀ last c, ascFromB last l = true →
    c < lastColFrom last l - last → (∀ p ∈ l, p.1 ≠ last + c + 1) →
    (paddedOf last l)[c]? = some "" := by
  induction l with
  | nil => intro last c _ hc _; simp [lastColFrom] at hc
  | cons q rest ih =>
    intro last c hasc hc hne
    simp only [ascFromB, Bool.and_eq_true, decide_eq_true_eq] at hasc
    simp only [lastColFrom] at hc
    have hqlast := lastColFrom_ge rest q.1 hasc.2
    by_cases h1 : c < q.1 - 1 - last
    · rw [paddedOf, List.getElem?_append]
      rw [if_pos (by simp only [List.length_replicate]; omega)]
      rw [List.getElem?_replicate, if_pos h1]
    · by_cases h2 : c = q.1 - 1 - last
      · exact absurd (by omega : q.1 = last + c + 1)
          (hne q (List.mem_cons_self q rest))
      · rw [paddedOf, List.getElem?_append_right
          (by simp only [List.length_replicate]; omega)]
        have harr : c - (List.replicate (q.1 - 1 - last) ("" : String)).length =
            (c - (q.1 - last)) + 1 := by
          simp only [List.length_replicate]; omega
        rw [harr, List.getElem?_cons_succ]
        apply ih q.1 (c - (q.1 - last)) hasc.2 (by omega)
        intro p hp
        have hgt := ascFromB_mem rest q.1 hasc.2 p hp
        have hno := hne p (List.mem_cons_of_mem q hp)
        omega

/-- C6: for a streamed row whose cells all carry explicit references with
strictly ascending columns and non-empty resolved values at columns
c1 < ... < ck, Columns returns a sequence of length exactly ck whose entry
at each ci is that cell's resolved value and whose entry at every skipped
column in between is the empty string. -/
theorem C6_columns_padding (l : List (Nat × String))
    (hasc : ascFromB 0 l = true) (hval : ∀ p ∈ l, p.2 ≠ "") :
    (columnsOf (l.map refCell)).length = lastColFrom 0 l ∧
    (∀ p ∈ l, (columnsOf (l.map refCell))[p.1 - 1]? = some p.2) ∧
    (∀ c : Nat, c < lastColFrom 0 l → (∀ p ∈ l, p.1 ≠ c + 1) →
      (columnsOf (l.map refCell))[c]? = some "") := by
  have hcol : columnsOf (l.map refCell) = paddedOf 0 l := by
    have hfold := columns_fold l 0 [] rfl hasc hval
    simp only [Nat.cast_zero] at hfold
    unfold columnsOf
    rw [hfold]
    simp
  refine ⟨?_, ?_, ?_⟩
  · rw [hcol, paddedOf_length l 0 hasc]
    omega
  · intro p hp
    have hm := paddedOf_get_mem l 0 p hasc hp
    rw [hcol]
    simpa using hm
  · intro c hc hne
    rw [hcol]
    apply paddedOf_get_blank l 0 c hasc (by omega)
    intro p hp
    simpa using hne p hp

/-- C6, witness: the spec's sparse-padding example, cells at columns 1, 3
and 5. -/
theorem C6_columns_padding_witness :
    (columnsOf ([(1, "v1"), (3, "v3"), (5, "v5")].map refCell)).length = 5 ∧
    (columnsOf ([(1, "v1"), (3, "v3"), (5, "v5")].map refCell))[0]? = some "v1" ∧
    (columnsOf ([(1, "v1"), (3, "v3"), (5, "v5")].map refCell))[1]? = some "" := by
  have h := C6_columns_padding [(1, "v1"), (3, "v3"), (5, "v5")] (by decide) (by decide)
  refine ⟨?_, ?_, ?_⟩
  · simpa [lastColFrom] using h.1
  · simpa using h.2.1 (1, "v1") (by simp)
  · exact h.2.2 1 (by decide) (by decide)

/- ------------------------------------------------------------------
Theorems for claim C7.
------------------------------------------------------------------ -/

/-- Cells of an ascending row all carry references. -/
theorem ncAsc_refs (cells : List NCell) : ∀ last, ncAscFrom last cells = true →
    ∀ c ∈ cells, c.ref.isSome = true := by
  induction cells with
  | nil => intro last _ c hc; exact absurd hc (by simp)
  | cons d rest ih =>
    intro last h c hc
    cases hd : d.ref with
    | none => simp [ncAscFrom, hd] at h
    | some kr =>
      simp only [ncAscFrom, hd, Bool.and_eq_true, decide_eq_true_eq] at h
      rcases List.mem_cons.mp hc with rfl | hc'
      · simp [hd]
      · exact ih kr.1 h.2 c hc'

/-- The first pass leaves a row of referenced cells unchanged. -/
theorem pass1_of_refs (rowNum : Nat) (cells : List NCell) :
    ∀ rCount, (∀ c ∈ cells, c.ref.isSome = true) →
    checkRowPass1 rowNum rCount cells = cells := by
  induction cells with
  | nil => intro rCount _; rfl
  | cons d rest ih =>
    intro rCount h
    cases hd : d.ref with
    | none =>
      have := h d (List.mem_cons_self d rest)
      rw [hd] at this
      exact absurd this (by simp)
    | some kr =>
      simp only [checkRowPass1, hd]
      rw [ih (max (rCount + 1) kr.1) fun c hc => h c (List.mem_cons_of_mem d hc)]

/-- Every cell column of an ascending row lies strictly above the bound. -/
theorem ncAsc_gt (cells : List NCell) : ∀ last, ncAscFrom last cells = true →
    ∀ c ∈ cells, last < ncCol c := by
  induction cells with
  | nil => intro last _ c hc; exact absurd hc (by simp)
  | cons d rest ih =>
    intro last h c hc
    cases hd : d.ref with
    | none => simp [ncAscFrom, hd] at h
    | some kr =>
      simp only [ncAscFrom, hd, Bool.and_eq_true, decide_eq_true_eq] at h
      rcases List.mem_cons.mp hc with rfl | hc'
      · simpa [ncCol, hd] using h.1
      · exact lt_trans h.1 (ih kr.1 h.2 c hc')

/-- The columns of an ascending row are pairwise distinct. -/
theorem ncAsc_pairwise (cells : List NCell) : ∀ last, ncAscFrom last cells = true →
    List.Pairwise (fun a b => ncCol a ≠ ncCol b) cells := by
  induction cells with
  | nil => intro last _; exact List.Pairwise.nil
  | cons d rest ih =>
    intro last h
    cases hd : d.ref with
    | none => simp [ncAscFrom, hd] at h
    | some kr =>
      simp only [ncAscFrom, hd, Bool.and_eq_true, decide_eq_true_eq] at h
      refine List.pairwise_cons.mpr ⟨?_, ih kr.1 h.2⟩
      intro b hb
      have hgt := ncAsc_gt rest kr.1 h.2 b hb
      simp only [ncCol, hd, Option.getD_some] at hgt ⊢
      omega

/-- Every cell column of an ascending row is bounded by the column of the
row's last cell. -/
theorem ncAsc_le_lastRefCol (cells : List NCell) : ∀ last, ncAscFrom last cells = true →
    ∀ c ∈ cells, ncCol c ≤ lastRefCol cells := by
  induction cells with
  | nil => intro last _ c hc; exact absurd hc (by simp)
  | cons d rest ih =>
    intro last h c hc
    cases hd : d.ref with
    | none => simp [ncAscFrom, hd] at h
    | some kr =>
      simp only [ncAscFrom, hd, Bool.and_eq_true, decide_eq_true_eq] at h
      cases rest with
      | nil =>
        rcases List.mem_cons.mp hc with rfl | hc'
        · simp [lastRefCol, hd, ncCol]
        · exact absurd hc' (by simp)
      | cons e rest' =>
        have hlast : lastRefCol (d :: e :: rest') = lastRefCol (e :: rest') := by
          simp [lastRefCol, List.getLast?_cons_cons]
        rw [hlast]
        rcases List.mem_cons.mp hc with rfl | hc'
        · have he : e ∈ e :: rest' := List.mem_cons_self e rest'
          have h1 : kr.1 < ncCol e := ncAsc_gt (e :: rest') kr.1 h.2 e he
          have h2 : ncCol e ≤ lastRefCol (e :: rest') := ih kr.1 h.2 e he
          simp only [ncCol, hd, Option.getD_some] at h1 h2 ⊢
          omega
        · exact ih kr.1 h.2 c hc'

/-- With every source column referenced, in bounds and pairwise distinct,
the placement loop succeeds and each position of the result carries the
unique source cell of that column, or the original target entry. -/
theorem placeCells_spec (src : List NCell) : ∀ acc : List NCell,
    (∀ c ∈ src, ∃ kr, c.ref = some kr ∧ 1 ≤ kr.1 ∧ kr.1 ≤ acc.length) →
    List.Pairwise (fun a b => ncCol a ≠ ncCol b) src →
    ∃ out, placeCells acc src = Except.ok out ∧ out.length = acc.length ∧
      ∀ j : Nat, out[j]? =
        match src.find? fun c => decide (ncCol c = j + 1) with
        | some c => some c
        | none => acc[j]? := by
  induction src with
  | nil =>
    intro acc _ _
    exact ⟨acc, rfl, rfl, fun j => by simp [List.find?]⟩
  | cons c rest ih =>
    intro acc hbound hpw
    obtain ⟨kr, href, h1, h2⟩ := hbound c (List.mem_cons_self c rest)
    have hcol : ncCol c = kr.1 := by simp [ncCol, href]
    obtain ⟨out, hout, hlen, hget⟩ :=
      ih (acc.set (kr.1 - 1) c)
        (fun b hb => by
          obtain ⟨kb, hb1, hb2, hb3⟩ := hbound b (List.mem_cons_of_mem c hb)
          exact ⟨kb, hb1, hb2, by rw [List.length_set]; exact hb3⟩)
        (List.pairwise_cons.mp hpw).2
    refine ⟨out, ?_, ?_, ?_⟩
    · simp only [placeCells, href]
      rw [if_pos ⟨h1, h2⟩]
      exact hout
    · rw [hlen, List.length_set]
    · intro j
      by_cases hcd : ncCol c = j + 1
      · rw [List.find?_cons_of_pos rest (by simp [hcd])]
        have hnone : rest.find? (fun b => decide (ncCol b = j + 1)) = none :=
          List.find?_eq_none.mpr fun b hb => by
            have := (List.pairwise_cons.mp hpw).1 b hb
            simp only [decide_eq_true_eq]
            omega
        have := hget j
        rw [hnone] at this
        rw [this]
        have hj : j = kr.1 - 1 := by omega
        subst hj
        exact List.getElem?_set_eq_of_lt c (by omega)
      · rw [List.find?_cons_of_neg rest (by simp [hcd])]
        have := hget j
        cases hfr : rest.find? fun b => decide (ncCol b = j + 1) with
        | some b =>
          rw [hfr] at this
          rw [this]
        | none =>
          rw [hfr] at this
          rw [this]
          exact List.getElem?_set_ne (by omega)

/-- C7: for every worksheet row whose cells carry ascending decoded
references and whose cell count is smaller than the column of its last
cell, checkRow rebuilds the row as a dense array from column 1 up to that
column: each original cell sits at its decoded column index, and every
other position holds a placeholder cell carrying only the synthesized
coordinate and no value. -/
theorem C7_checkRow_densify (rowNum : Nat) (cells : List NCell)
    (hasc : ncAscFrom 0 cells = true)
    (hlt : cells.length < lastRefCol cells) :
    checkRowOne rowNum cells = Except.ok (densifiedRow rowNum cells) := by
  have hne : ¬ cells.length = 0 := by
    intro h0
    rw [List.length_eq_zero] at h0
    subst h0
    simp [lastRefCol] at hlt
  have hrefs := ncAsc_refs cells 0 hasc
  unfold checkRowOne
  rw [if_neg hne]
  simp only [pass1_of_refs rowNum cells 0 hrefs]
  rw [if_pos hlt]
  have hbound : ∀ c ∈ cells, ∃ kr, c.ref = some kr ∧ 1 ≤ kr.1 ∧
      kr.1 ≤ ((List.range (lastRefCol cells)).map
        fun i => (⟨some (i + 1, rowNum), none⟩ : NCell)).length := by
    intro c hc
    obtain ⟨kr, hkr⟩ := Option.isSome_iff_exists.mp (hrefs c hc)
    have hgt := ncAsc_gt cells 0 hasc c hc
    have hle := ncAsc_le_lastRefCol cells 0 hasc c hc
    rw [ncCol, hkr] at hgt hle
    refine ⟨kr, hkr, by simpa using hgt, ?_⟩
    simpa using hle
  obtain ⟨out, hout, hlen, hget⟩ :=
    placeCells_spec cells _ hbound (ncAsc_pairwise cells 0 hasc)
  rw [hout]
  congr 1
  apply List.ext_getElem?
  intro j
  rw [hget j]
  unfold densifiedRow
  by_cases hj : j < lastRefCol cells
  · cases hfind : cells.find? fun c => decide (ncCol c = j + 1) with
    | some c =>
      simp only [List.getElem?_map, List.getElem?_range hj]
      simp [hfind]
    | none =>
      simp only [List.getElem?_map, List.getElem?_range hj]
      simp [hfind]
  · have hfind : (cells.find? fun c => decide (ncCol c = j + 1)) = none :=
      List.find?_eq_none.mpr fun c hc => by
        have := ncAsc_le_lastRefCol cells 0 hasc c hc
        simp only [decide_eq_true_eq]
        omega
    rw [hfind]
    have hlen1 : ((List.range (lastRefCol cells)).map
        fun i => (⟨some (i + 1, rowNum), none⟩ : NCell)).length ≤ j := by
      simp only [List.length_map, List.length_range]
      omega
    have hlen2 : ((List.range (lastRefCol cells)).map
        fun j => (cells.find? fun c => decide (ncCol c = j + 1)).getD
          ⟨some (j + 1, rowNum), none⟩).length ≤ j := by
      simp only [List.length_map, List.length_range]
      omega
    rw [List.getElem?_eq_none hlen1, List.getElem?_eq_none hlen2]

/-- C7, witness: the row with cells at columns 1, 2, 6 and 7 normalizes to
exactly seven cells, with synthesized placeholders at columns 3, 4, 5. -/
theorem C7_checkRow_densify_witness :
    checkRowOne 15
      [⟨some (1, 15), some "a"⟩, ⟨some (2, 15), some "b"⟩,
        ⟨some (6, 15), some "c"⟩, ⟨some (7, 15), some "d"⟩] =
      Except.ok (densifiedRow 15
        [⟨some (1, 15), some "a"⟩, ⟨some (2, 15), some "b"⟩,
          ⟨some (6, 15), some "c"⟩, ⟨some (7, 15), some "d"⟩]) :=
  C7_checkRow_densify 15 _ (by decide) (by decide)

/- ------------------------------------------------------------------
Theorems for claim C8.
------------------------------------------------------------------ -/

/-- The build records one offset pair per string item. -/
theorem buildAux_length (strs : List (List Char)) : ∀ off,
    (buildAux off strs).2.length = strs.length := by
  induction strs with
  | nil => intro off; rfl
  | cons s rest ih =>
    intro off
    simp [buildAux, ih (off + s.length)]

/-- The spooled file is the concatenation of the rendered string items. -/
theorem buildAux_file (strs : List (List Char)) : ∀ off,
    (buildAux off strs).1 = strs.flatten := by
  induction strs with
  | nil => intro off; rfl
  | cons s rest ih =>
    intro off
    simp [buildAux, ih (off + s.length)]

/-- The i-th recorded offset pair brackets the i-th item inside the
file. -/
theorem buildAux_item (strs : List (List Char)) : ∀ off i, i < strs.length →
    (buildAux off strs).2.getD i (0, 0) =
      (off + lenSum (strs.take i), off + lenSum (strs.take (i + 1))) := by
  induction strs with
  | nil => intro off i h; exact absurd h (by simp)
  | cons s rest ih =>
    intro off i h
    cases i with
    | zero => simp [buildAux, lenSum]
    | succ i =>
      have hi : i < rest.length := by simpa using h
      simp only [buildAux]
      rw [List.getD_cons_succ, ih (off + s.length) i hi]
      simp only [List.take_succ_cons, lenSum, List.map_cons, List.sum_cons,
        Prod.mk.injEq]
      constructor <;> omega

/-- Extracting the bracketed range of the i-th item from the concatenated
file returns that item. -/
theorem flatten_extract (strs : List (List Char)) : ∀ i, i < strs.length →
    ((strs.flatten.drop (lenSum (strs.take i))).take
      (lenSum (strs.take (i + 1)) - lenSum (strs.take i))) = strs.getD i [] := by
  induction strs with
  | nil => intro i h; exact absurd h (by simp)
  | cons s rest ih =>
    intro i h
    cases i with
    | zero => simp [lenSum, List.take_left]
    | succ i =>
      have hi : i < rest.length := by simpa using h
      simp only [List.take_succ_cons, lenSum, List.map_cons, List.sum_cons,
        List.flatten_cons, List.getD_cons_succ]
      rw [List.drop_append, Nat.add_sub_add_left]
      exact ih i hi

/-- Prefix item lengths never exceed the whole file length. -/
theorem lenSum_take_le (strs : List (List Char)) (n : Nat) :
    lenSum (strs.take n) ≤ lenSum strs := by
  conv_rhs => rw [← List.take_append_drop n strs]
  simp only [lenSum, List.map_append, List.sum_append]
  omega

/-- Each item's end offset is the start offset plus the item length. -/
theorem lenSum_take_succ (strs : List (List Char)) (i : Nat) (h : i < strs.length) :
    lenSum (strs.take (i + 1)) = lenSum (strs.take i) + (strs.getD i []).length := by
  rw [List.take_succ, List.getElem?_eq_getElem h]
  simp only [lenSum, List.map_append, List.sum_append, Option.toList_some,
    List.map_cons, List.map_nil, List.sum_cons, List.sum_nil]
  rw [List.getD_eq_getElem strs [] h]
  omega

/-- C8: for every built shared-string table, a lookup at an index at or
past the item count returns the decimal string representation of the
index, while a lookup below the count returns exactly the bytes recorded
at that index's offset range in the spooled file, i.e. the rendered
string item. -/
theorem C8_getFromStringItem (strs : List (List Char)) (index : Nat) :
    (strs.length ≤ index →
      getFromStringItem (buildSST strs).1 (buildSST strs).2 index =
        (Nat.repr index).data) ∧
    (index < strs.length →
      getFromStringItem (buildSST strs).1 (buildSST strs).2 index =
        strs.getD index []) := by
  constructor
  · intro h
    unfold getFromStringItem buildSST
    rw [if_pos (by rw [buildAux_length]; exact h)]
  · intro h
    unfold getFromStringItem buildSST
    rw [if_neg (by rw [buildAux_length]; omega)]
    rw [buildAux_item strs 0 index h, buildAux_file strs 0]
    simp only [Nat.zero_add]
    have hs := lenSum_take_succ strs index h
    have hb := lenSum_take_le strs (index + 1)
    rw [if_pos (by rw [List.length_flatten]; change _ ≤ lenSum strs; omega)]
    exact flatten_extract strs index h

/-- C8, witness: the built table of the items "hi" and "yo" serves index 1
from the file and degrades index 5 to its decimal representation. -/
theorem C8_getFromStringItem_witness :
    getFromStringItem (buildSST [['h', 'i'], ['y', 'o']]).1
        (buildSST [['h', 'i'], ['y', 'o']]).2 1 =
      [['h', 'i'], ['y', 'o']].getD 1 [] ∧
    getFromStringItem (buildSST [['h', 'i'], ['y', 'o']]).1
        (buildSST [['h', 'i'], ['y', 'o']]).2 5 =
      (Nat.repr 5).data :=
  ⟨(C8_getFromStringItem [['h', 'i'], ['y', 'o']] 1).2 (by decide),
   (C8_getFromStringItem [['h', 'i'], ['y', 'o']] 5).1 (by decide)⟩

/- ------------------------------------------------------------------
Theorems for claims C9 and C10.
------------------------------------------------------------------ -/

/-- C9: SetDropList returns the data-validation formula-length error
exactly when the UTF-16 code-unit length of the comma-joined key list
exceeds the maximum field length, and in the error case the
DataValidation object is left unchanged (no type or formula written). -/
theorem C9_setDropList (dv : DataValidation) (keys : List String) :
    ((setDropList dv keys).2 = some Err.formulaLength ↔
      MaxFieldLength < utf16Length (joinComma keys)) ∧
    (MaxFieldLength < utf16Length (joinComma keys) →
      (setDropList dv keys).1 = dv) := by
  unfold setDropList
  by_cases hc : MaxFieldLength < utf16Length (joinComma keys)
  · rw [if_pos hc]
    exact ⟨by simp [hc], fun _ => rfl⟩
  · rw [if_neg hc]
    by_cases hs : (joinComma keys).head? = some '='
    · rw [if_pos hs]
      exact ⟨by simp [hc], fun hcc => absurd hcc hc⟩
    · rw [if_neg hs]
      exact ⟨by simp [hc], fun hcc => absurd hcc hc⟩

set_option maxRecDepth 4000 in
/-- C9, witness: a single 256-character key exceeds the 255-unit limit and
leaves the object untouched, while a short key list does not error. -/
theorem C9_setDropList_witness :
    (setDropList ⟨false, "", "", "", "", ""⟩
      [String.mk (List.replicate 256 'a')]).2 = some Err.formulaLength ∧
    (setDropList ⟨false, "", "", "", "", ""⟩
      [String.mk (List.replicate 256 'a')]).1 = ⟨false, "", "", "", "", ""⟩ := by
  have h := C9_setDropList ⟨false, "", "", "", "", ""⟩
    [String.mk (List.replicate 256 'a')]
  have hover : MaxFieldLength <
      utf16Length (joinComma [String.mk (List.replicate 256 'a')]) := by decide
  exact ⟨h.1.mpr hover, h.2 hover⟩

/-- C10: for every worksheet and row number at least one but greater than
the count of stored rows, the read-only getters return their defaults
with no error: GetRowVisible returns false, GetRowOutlineLevel returns 0,
and GetRowHeight returns the sheet default height. -/
theorem C10_row_getter_defaults (ws : WSheet) (row : Int)
    (h1 : 1 ≤ row) (h2 : (ws.rows.length : Int) < row) :
    getRowVisible ws row = Except.ok false ∧
    getRowOutlineLevel ws row = Except.ok 0 ∧
    getRowHeight ws row = Except.ok (sheetDefaultHeight ws) := by
  refine ⟨?_, ?_, ?_⟩
  · unfold getRowVisible
    rw [if_neg (by omega), if_pos h2]
  · unfold getRowOutlineLevel
    rw [if_neg (by omega), if_pos h2]
  · unfold getRowHeight
    rw [if_neg (by omega), if_pos h2]

/-- C10, witness: row 3 of a worksheet storing a single row. -/
theorem C10_row_getter_defaults_witness :
    getRowVisible ⟨[⟨1, none, true, 2⟩], none⟩ 3 = Except.ok false ∧
    getRowOutlineLevel ⟨[⟨1, none, true, 2⟩], none⟩ 3 = Except.ok 0 ∧
    getRowHeight ⟨[⟨1, none, true, 2⟩], none⟩ 3 =
      Except.ok (sheetDefaultHeight ⟨[⟨1, none, true, 2⟩], none⟩) :=
  C10_row_getter_defaults ⟨[⟨1, none, true, 2⟩], none⟩ 3 (by decide) (by decide)

end Excelize
